import Mathlib

/-!
Shallow embedding of `src/zettlecast/podcast/aligner.py`: the word-to-speaker
alignment and segment-consolidation engine of the podcast transcription
pipeline.

Conventions of the embedding:
* Python `float` timestamps are modelled as exact rationals (`ℚ`).
* The Python attribute `end` is rendered as the field `stop` (`end` is a Lean
  keyword); all other names follow the source where Lean allows.
* Word lists and segment lists are Lean lists; in-place mutation of `speaker`
  fields is rendered as returning the updated value.
* Python's `None` speaker is `Option.none`.
* Optional parameters (`min_duration=1.5`, `min_speaker_segments=3`, and the
  minor-speaker time-share threshold, default `0.05`) become explicit
  arguments; call sites pass the Python defaults `3/2`, `3`, `1/20`.
* Python's uncaught `ValueError` from `float(...)` is rendered as
  `Except.error`.
* The Python `set` of minor/dominant speakers is rendered as a duplicate-free
  list in first-appearance order (the per-speaker stats dict preserves
  insertion order in CPython; set iteration order only influences behaviour
  through tie-breaking on exactly equal sort keys).
-/

/-- `Word` from `aligner.py`: a transcribed token with timestamps; `speaker`
starts out `none` and is filled in during alignment. -/
structure Word where
  text : String
  start : ℚ
  stop : ℚ
  speaker : Option String
deriving DecidableEq, Repr

/-- `SpeakerSegment` from `aligner.py`: one diarization turn. -/
structure SpeakerSegment where
  speaker : String
  start : ℚ
  stop : ℚ
deriving DecidableEq, Repr

/-- `TranscriptSegment` from `aligner.py`: a run of words attributed to one
speaker.  The derived `text` attribute is recomputed on demand (word texts are
never mutated, so this agrees with the Python value cached at construction). -/
structure TranscriptSegment where
  speaker : Option String
  words : List Word
  start : ℚ
  stop : ℚ
deriving DecidableEq, Repr

/-- Python `" ".join(texts)`. -/
def joinSpace : List String → String
  | [] => ""
  | [t] => t
  | t :: rest => t ++ " " ++ joinSpace rest

/-- `TranscriptSegment.text`: space-joined word texts. -/
def TranscriptSegment.text (seg : TranscriptSegment) : String :=
  joinSpace (seg.words.map Word.text)

/-- `SpeakerSegment.overlaps_with`: `not (word.end <= self.start or word.start >= self.end)`. -/
def SpeakerSegment.overlaps_with (s : SpeakerSegment) (w : Word) : Bool :=
  if w.stop ≤ s.start ∨ w.start ≥ s.stop then false else true

/-- `SpeakerSegment.overlap_duration`:
`max(0, min(self.end, word.end) - max(self.start, word.start))`. -/
def SpeakerSegment.overlap_duration (s : SpeakerSegment) (w : Word) : ℚ :=
  max 0 (min s.stop w.stop - max s.start w.start)

/-! ### Python string primitives, on explicit character lists -/

/-- Python `str.strip()`. -/
def pyStrip (cs : List Char) : List Char :=
  ((cs.dropWhile Char.isWhitespace).reverse.dropWhile Char.isWhitespace).reverse

/-- Helper for `splitNl`; accumulates the current piece in reverse. -/
def splitNlAux (acc : List Char) : List Char → List (List Char)
  | [] => [acc.reverse]
  | c :: rest =>
    if c = '\n' then acc.reverse :: splitNlAux [] rest
    else splitNlAux (c :: acc) rest

/-- Python `str.split("\n")` (keeps empty pieces; `"".split("\n") == [""]`). -/
def splitNl (cs : List Char) : List (List Char) := splitNlAux [] cs

/-- Helper for `pyFields`; accumulates the current field in reverse. -/
def pyFieldsAux (cur : List Char) : List Char → List (List Char)
  | [] => if cur = [] then [] else [cur.reverse]
  | c :: rest =>
    if c.isWhitespace then
      if cur = [] then pyFieldsAux [] rest else cur.reverse :: pyFieldsAux [] rest
    else pyFieldsAux (c :: cur) rest

/-- Python `str.split()` with no argument: split on whitespace runs, dropping
empty fields. -/
def pyFields (cs : List Char) : List (List Char) := pyFieldsAux [] cs

/-- Keyword test `line.startswith("SPEAKER")`. -/
def startsWithKeyword (cs : List Char) : Bool :=
  if cs.take 7 = "SPEAKER".data then true else false

/-- Numeric value of a digit string (most significant first). -/
def digitsVal (cs : List Char) : Nat :=
  cs.foldl (fun n c => 10 * n + (c.toNat - 48)) 0

/-- Magnitude part of Python `float(s)` on plain decimal literals:
`digits`, `digits.`, `.digits` or `digits.digits`.  Returns `none` exactly when
Python's `float` would raise `ValueError` on such a token (exponent and
inf/nan spellings do not occur in RTTM timestamps and are treated as
malformed). -/
def pyFloatMag (cs : List Char) : Option ℚ :=
  let ip := cs.takeWhile Char.isDigit
  match cs.dropWhile Char.isDigit with
  | [] => if ip = [] then none else some (digitsVal ip : ℚ)
  | c :: rest2 =>
    if c = '.' then
      let fp := rest2.takeWhile Char.isDigit
      if rest2.dropWhile Char.isDigit = [] ∧ ¬(ip = [] ∧ fp = []) then
        some ((digitsVal ip : ℚ) + (digitsVal fp : ℚ) / (10 : ℚ) ^ fp.length)
      else none
    else none

/-- Python `float(s)` on a whitespace-free token: optional sign then a decimal
magnitude. -/
def pyFloat (cs : List Char) : Option ℚ :=
  if cs.head? = some '-' then (pyFloatMag cs.tail).map (fun q => -q)
  else if cs.head? = some '+' then pyFloatMag cs.tail
  else pyFloatMag cs

/-! ### 4.1 `parse_rttm` -/

/-- Ordering used by `segments.sort(key=lambda s: s.start)`. -/
def segLE (a b : SpeakerSegment) : Prop := a.start ≤ b.start

instance : DecidableRel segLE := fun a b => inferInstanceAs (Decidable (a.start ≤ b.start))

instance : IsTotal SpeakerSegment segLE := ⟨fun a b => le_total a.start b.start⟩

instance : IsTrans SpeakerSegment segLE := ⟨fun _ _ _ h1 h2 => le_trans h1 h2⟩

/-- Body of the line loop of `parse_rttm`.  A line is skipped when blank or not
starting with the keyword, skipped (with a logged warning) when it has fewer
than 8 fields, and turned into a segment with `end = start + duration`
otherwise; a non-numeric start or duration raises `ValueError` (modelled as
`Except.error`), aborting the whole parse as the uncaught Python exception
does. -/
def parseRttmLines : List (List Char) → Except String (List SpeakerSegment)
  | [] => .ok []
  | line :: rest =>
    if pyStrip line = [] ∨ ¬ startsWithKeyword line then parseRttmLines rest
    else
      let parts := pyFields line
      if parts.length < 8 then parseRttmLines rest
      else
        match pyFloat (parts.getD 3 []), pyFloat (parts.getD 4 []) with
        | some start_time, some duration =>
          (parseRttmLines rest).map
            (fun segs => ⟨String.mk (parts.getD 7 []), start_time, start_time + duration⟩ :: segs)
        | _, _ => .error "ValueError: could not convert string to float"

/-- `parse_rttm` from `aligner.py`: iterate over
`rttm_content.strip().split("\n")`, collect well-formed `SPEAKER` lines, then
sort ascending by start time. -/
def parse_rttm (rttm_content : String) : Except String (List SpeakerSegment) :=
  (parseRttmLines (splitNl (pyStrip rttm_content.data))).map
    (fun segments => List.insertionSort segLE segments)

/-! ### 4.2 `assign_speakers_to_words` -/

/-- Python `min(iterable, key=f)`: first element attaining the minimum key,
folded over `x :: xs`. -/
def firstMinBy {α : Type} (f : α → ℚ) (x : α) (xs : List α) : α :=
  xs.foldl (fun b y => if f y < f b then y else b) x

/-- Python `max(iterable, key=f)`: first element attaining the maximum key,
folded over `x :: xs`. -/
def firstMaxBy {α : Type} (f : α → ℚ) (x : α) (xs : List α) : α :=
  xs.foldl (fun b y => if f y > f b then y else b) x

/-- Key of the closest-segment fallback:
`min(abs(s.start - word.start), abs(s.end - word.end))`. -/
def closenessKey (w : Word) (s : SpeakerSegment) : ℚ :=
  min |s.start - w.start| |s.stop - w.stop|

/-- Per-word body of the loop of `assign_speakers_to_words`: zero overlapping
segments → closest segment by `closenessKey`; exactly one → that segment;
several → greatest `overlap_duration`, first maximum on ties.  (The
`speaker_segments = []` case is unreachable: the caller returns early.) -/
def assignSpeaker (speaker_segments : List SpeakerSegment) (w : Word) : Word :=
  match speaker_segments.filter (fun seg => seg.overlaps_with w) with
  | [] =>
    match speaker_segments with
    | [] => w
    | s :: rest => { w with speaker := some (firstMinBy (closenessKey w) s rest).speaker }
  | [seg] => { w with speaker := some seg.speaker }
  | seg :: more => { w with speaker := some (firstMaxBy (fun s => s.overlap_duration w) seg more).speaker }

/-- `assign_speakers_to_words` from `aligner.py`: if no speaker segments were
provided return the words untouched (logged warning), else fill in each word's
speaker. -/
def assign_speakers_to_words (words : List Word) (speaker_segments : List SpeakerSegment) :
    List Word :=
  if speaker_segments = [] then words
  else words.map (assignSpeaker speaker_segments)

/-! ### 4.3 `group_words_by_speaker` -/

/-- `current_words[-1].end` (the running word list is never empty). -/
def lastStop (ws : List Word) : ℚ := (ws.getLast?).elim 0 Word.stop

/-- Loop of `group_words_by_speaker`: extend the running segment while the
speaker is unchanged, otherwise emit it and start a new one. -/
def groupAux (current_speaker : Option String) (current_words : List Word) (segment_start : ℚ) :
    List Word → List TranscriptSegment
  | [] => [⟨current_speaker, current_words, segment_start, lastStop current_words⟩]
  | w :: ws =>
    if w.speaker = current_speaker then
      groupAux current_speaker (current_words ++ [w]) segment_start ws
    else
      ⟨current_speaker, current_words, segment_start, lastStop current_words⟩ ::
        groupAux w.speaker [w] w.start ws

/-- `group_words_by_speaker` from `aligner.py`. -/
def group_words_by_speaker : List Word → List TranscriptSegment
  | [] => []
  | w :: ws => groupAux w.speaker [w] w.start ws

/-! ### 4.4 `merge_micro_segments` -/

/-- Inner rebuild loop of one `while changed` pass of `merge_micro_segments`,
with `racc` holding the rebuilt prefix (`new_merged`) in reverse.  A segment is
absorbed into the previous rebuilt segment when its duration is below
`min_duration`, it is strictly inside the list (`notFirst` and a next element
exists), the rebuilt prefix is nonempty, and the previous rebuilt segment's
speaker equals the next original segment's speaker. -/
def rebuildPass (min_duration : ℚ) (notFirst : Bool) (racc : List TranscriptSegment)
    (changed : Bool) : List TranscriptSegment → List TranscriptSegment × Bool
  | [] => (racc.reverse, changed)
  | seg :: rest =>
    match notFirst, rest, racc with
    | true, next :: _, prev :: raccTail =>
      if seg.stop - seg.start < min_duration ∧ prev.speaker = next.speaker then
        rebuildPass min_duration true
          (⟨prev.speaker, prev.words ++ seg.words, prev.start, seg.stop⟩ :: raccTail) true rest
      else rebuildPass min_duration true (seg :: racc) changed rest
    | _, _, _ => rebuildPass min_duration true (seg :: racc) changed rest

/-- The consolidation fold shared by `merge_micro_segments` (where it also
reports a change flag) and `merge_similar_speakers` (where the flag is
dropped): merge each segment into the previous output segment when the
speakers coincide, else append it.  `racc` is the output in reverse. -/
def consolidatePass (racc : List TranscriptSegment) (changed : Bool) :
    List TranscriptSegment → List TranscriptSegment × Bool
  | [] => (racc.reverse, changed)
  | seg :: rest =>
    match racc with
    | prev :: raccTail =>
      if prev.speaker = seg.speaker then
        consolidatePass (⟨prev.speaker, prev.words ++ seg.words, prev.start, seg.stop⟩ :: raccTail)
          true rest
      else consolidatePass (seg :: racc) changed rest
    | [] => consolidatePass [seg] changed rest

/-- One full `while changed` iteration of `merge_micro_segments`: the rebuild
loop followed by the same-speaker consolidation loop, with the shared
`changed` flag. -/
def microPass (min_duration : ℚ) (segments : List TranscriptSegment) :
    List TranscriptSegment × Bool :=
  match rebuildPass min_duration false [] false segments with
  | (new_merged, changed) => consolidatePass [] changed new_merged

/-- The `while changed` loop of `merge_micro_segments`.  The fuel argument is a
defensive iteration bound; `microPass_length_lt` below shows every changing
pass strictly shrinks the list, so fuel `segments.length + 1` is never
exhausted (`microLoop_fixed_point`). -/
def microLoop (min_duration : ℚ) : Nat → List TranscriptSegment → List TranscriptSegment
  | 0, segments => segments
  | fuel + 1, segments =>
    match microPass min_duration segments with
    | (out, true) => microLoop min_duration fuel out
    | (out, false) => out

/-- `merge_micro_segments` from `aligner.py` (Python default
`min_duration = 1.5`). -/
def merge_micro_segments (segments : List TranscriptSegment) (min_duration : ℚ) :
    List TranscriptSegment :=
  if segments.length ≤ 2 then segments
  else microLoop min_duration (segments.length + 1) segments

/-! ### 4.5 `merge_similar_speakers` -/

/-- Per-speaker statistics collected by `merge_similar_speakers`. -/
structure SpeakerStats where
  segment_count : Nat
  total_duration : ℚ
  earliest_start : ℚ
  latest_stop : ℚ
deriving DecidableEq, Repr

/-- The `stats` update performed for each segment of a speaker. -/
def updateStats (st : SpeakerStats) (seg : TranscriptSegment) : SpeakerStats :=
  ⟨st.segment_count + 1, st.total_duration + (seg.stop - seg.start),
    min st.earliest_start seg.start, max st.latest_stop seg.stop⟩

/-- One step of the stats-building loop: update the existing entry of this
segment's speaker, or append a fresh entry (initialised with the segment's own
bounds, as in the source) and update it. -/
def statsUpsert (stats : List (Option String × SpeakerStats)) (seg : TranscriptSegment) :
    List (Option String × SpeakerStats) :=
  if stats.any (fun p => if p.1 = seg.speaker then true else false) then
    stats.map (fun p => if p.1 = seg.speaker then (p.1, updateStats p.2 seg) else p)
  else stats ++ [(seg.speaker, updateStats ⟨0, 0, seg.start, seg.stop⟩ seg)]

/-- `speaker_stats`, as an insertion-ordered association list (CPython dicts
preserve insertion order). -/
def speakerStats (segments : List TranscriptSegment) : List (Option String × SpeakerStats) :=
  segments.foldl statsUpsert []

/-- `total_duration = sum(s["total_duration"] for s in speaker_stats.values())`. -/
def grandTotal (stats : List (Option String × SpeakerStats)) : ℚ :=
  (stats.map (fun p => p.2.total_duration)).sum

/-- The minor-speaker test:
`segment_count < min_speaker_segments or total_duration / total < threshold`. -/
def isMinorStats (min_speaker_segments : Nat) (minTimeShare : ℚ) (total : ℚ)
    (st : SpeakerStats) : Prop :=
  st.segment_count < min_speaker_segments ∨ st.total_duration / total < minTimeShare

instance (m : Nat) (t total : ℚ) (st : SpeakerStats) : Decidable (isMinorStats m t total st) :=
  inferInstanceAs (Decidable (st.segment_count < m ∨ st.total_duration / total < t))

/-- The minor speakers, collected over the stats loop in insertion order. -/
def minorKeys (stats : List (Option String × SpeakerStats)) (min_speaker_segments : Nat)
    (minTimeShare : ℚ) (total : ℚ) : List (Option String) :=
  match stats with
  | [] => []
  | p :: rest =>
    if isMinorStats min_speaker_segments minTimeShare total p.2 then
      p.1 :: minorKeys rest min_speaker_segments minTimeShare total
    else minorKeys rest min_speaker_segments minTimeShare total

/-- The dominant speakers (all speakers minus the minor ones), in stats order. -/
def dominantKeys (stats : List (Option String × SpeakerStats)) (min_speaker_segments : Nat)
    (minTimeShare : ℚ) (total : ℚ) : List (Option String) :=
  match stats with
  | [] => []
  | p :: rest =>
    if isMinorStats min_speaker_segments minTimeShare total p.2 then
      dominantKeys rest min_speaker_segments minTimeShare total
    else p.1 :: dominantKeys rest min_speaker_segments minTimeShare total

/-- The temporal gap between a minor speaker's active window and a dominant
speaker's active window:
`max(0, max(minor_start - dom_latest_end, dom_earliest_start - minor_end))`. -/
def speakerGap (minorSt domSt : SpeakerStats) : ℚ :=
  max 0 (max (minorSt.earliest_start - domSt.latest_stop)
    (domSt.earliest_start - minorSt.latest_stop))

/-- Stats lookup (`speaker_stats[key]`). -/
def statsFor (stats : List (Option String × SpeakerStats)) (k : Option String) :
    Option SpeakerStats :=
  (stats.find? (fun p => if p.1 = k then true else false)).map (fun p => p.2)

/-- The candidate list built for one minor speaker: each dominant speaker with
its gap and its total speaking time. -/
def candidatesFor (stats : List (Option String × SpeakerStats))
    (dominant : List (Option String)) (minorSt : SpeakerStats) :
    List (Option String × ℚ × ℚ) :=
  dominant.filterMap (fun dom =>
    (statsFor stats dom).map (fun ds => (dom, speakerGap minorSt ds, ds.total_duration)))

/-- Sort key `(gap, -total_duration)` of `candidates.sort`, as a `≤`-style
relation. -/
def candLE (a b : Option String × ℚ × ℚ) : Prop :=
  a.2.1 < b.2.1 ∨ (a.2.1 = b.2.1 ∧ b.2.2 ≤ a.2.2)

instance : DecidableRel candLE := fun a b =>
  inferInstanceAs (Decidable (a.2.1 < b.2.1 ∨ (a.2.1 = b.2.1 ∧ b.2.2 ≤ a.2.2)))

/-- `candidates.sort(...); candidates[0][0]`: the merge target of one minor
speaker (`none` only on an empty candidate list, which the dominant-speakers
guard rules out). -/
def mergeTarget (stats : List (Option String × SpeakerStats))
    (dominant : List (Option String)) (minorSt : SpeakerStats) : Option (Option String) :=
  (List.insertionSort candLE (candidatesFor stats dominant minorSt)).head?.map (fun c => c.1)

/-- `merge_map`: each minor speaker paired with its chosen dominant target. -/
def buildMergeMap (stats : List (Option String × SpeakerStats))
    (minor dominant : List (Option String)) : List (Option String × Option String) :=
  minor.filterMap (fun m =>
    (statsFor stats m).bind (fun ms =>
      (mergeTarget stats dominant ms).map (fun t => (m, t))))

/-- The relabelling loop: segments whose speaker is in the merge map get the
new label on themselves and on every contained word. -/
def relabelSegments (mergeMap : List (Option String × Option String))
    (segments : List TranscriptSegment) : List TranscriptSegment :=
  segments.map (fun seg =>
    match (mergeMap.find? (fun p => if p.1 = seg.speaker then true else false)).map
        (fun p => p.2) with
    | some ns => ⟨ns, seg.words.map (fun w => { w with speaker := ns }), seg.start, seg.stop⟩
    | none => seg)

/-- The trailing consolidation loop of `merge_similar_speakers` (same fold as
in `merge_micro_segments`, change flag unused). -/
def consolidateSegments (segments : List TranscriptSegment) : List TranscriptSegment :=
  (consolidatePass [] false segments).1

/-- `merge_similar_speakers` from `aligner.py` (Python defaults
`min_speaker_segments = 3`, time-share threshold `0.05 = 1/20`). -/
def merge_similar_speakers (segments : List TranscriptSegment) (min_speaker_segments : Nat)
    (minTimeShare : ℚ) : List TranscriptSegment :=
  if segments = [] then segments
  else
    let stats := speakerStats segments
    if stats.length < 2 then segments
    else
      let total := grandTotal stats
      if total = 0 then segments
      else
        let minor := minorKeys stats min_speaker_segments minTimeShare total
        let dominant := dominantKeys stats min_speaker_segments minTimeShare total
        if minor = [] ∨ dominant = [] then segments
        else consolidateSegments (relabelSegments (buildMergeMap stats minor dominant) segments)

/-! ### 4.6 top-level pipeline -/

/-- `align_transcription_with_diarization` from `aligner.py`: parse → assign →
group → merge micro-segments → merge minor speakers, with the Python default
thresholds. -/
def align_transcription_with_diarization (words : List Word) (rttm_content : String) :
    Except String (List TranscriptSegment) :=
  (parse_rttm rttm_content).map (fun speaker_segments =>
    merge_similar_speakers
      (merge_micro_segments
        (group_words_by_speaker (assign_speakers_to_words words speaker_segments))
        (3 / 2))
      3 (1 / 20))

/-! ### Spec-side vocabulary used by the claim theorems -/

/-- The words of a segment list, concatenated in order. -/
def segmentWords (segments : List TranscriptSegment) : List Word :=
  (segments.map TranscriptSegment.words).flatten

/-- A word with its `speaker` label erased (used to state conservation across
the in-place relabelling of `merge_similar_speakers`). -/
def wordShape (w : Word) : String × ℚ × ℚ := (w.text, w.start, w.stop)

/-- No two adjacent segments of the list share a speaker label. -/
def noAdjacentSameSpeaker (segments : List TranscriptSegment) : Prop :=
  List.Chain' (fun a b => a.speaker ≠ b.speaker) segments

/-- `x` is the first element of `l` attaining the minimum of `f`: everything
before it is strictly larger, everything after it is at least as large. -/
def FirstMinHolds {α : Type} (f : α → ℚ) (l : List α) (x : α) : Prop :=
  ∃ l₁ l₂, l = l₁ ++ x :: l₂ ∧ (∀ y ∈ l₁, f x < f y) ∧ ∀ y ∈ l₂, f x ≤ f y

/-- `x` is the first element of `l` attaining the maximum of `f`: everything
before it is strictly smaller, everything after it is at most as large. -/
def FirstMaxHolds {α : Type} (f : α → ℚ) (l : List α) (x : α) : Prop :=
  ∃ l₁ l₂, l = l₁ ++ x :: l₂ ∧ (∀ y ∈ l₁, f y < f x) ∧ ∀ y ∈ l₂, f y ≤ f x

/-- A line that `parse_rttm` attempts to convert: non-blank, starts with the
keyword, and has at least 8 whitespace-separated fields. -/
def rttmRelevant (line : List Char) : Bool :=
  if pyStrip line = [] ∨ ¬ startsWithKeyword line then false
  else if (pyFields line).length < 8 then false
  else true

/-- Fields 3 and 4 of the line parse as numbers. -/
def rttmNumeric (line : List Char) : Bool :=
  (pyFloat ((pyFields line).getD 3 [])).isSome && (pyFloat ((pyFields line).getD 4 [])).isSome

/-- A well-formed speaker line: relevant and numeric. -/
def rttmGood (line : List Char) : Bool := rttmRelevant line && rttmNumeric line

/-- The segment a well-formed speaker line denotes: speaker from field 7,
`start` from field 3, `end = start + duration` with duration from field 4. -/
def lineSeg (line : List Char) : SpeakerSegment :=
  let st := (pyFloat ((pyFields line).getD 3 [])).getD 0
  let du := (pyFloat ((pyFields line).getD 4 [])).getD 0
  ⟨String.mk ((pyFields line).getD 7 []), st, st + du⟩

/-- A diarization result in which speaker C is an over-split fragment: C has
only two short segments between A's three, while A, B, D each have three
well-separated segments (used to settle the idempotence claim about
`merge_similar_speakers`). -/
def overSplitSegments : List TranscriptSegment :=
  [⟨some "A", [], 0, 10⟩, ⟨some "C", [], 10, 11⟩, ⟨some "A", [], 11, 21⟩,
   ⟨some "C", [], 21, 22⟩, ⟨some "A", [], 22, 32⟩, ⟨some "B", [], 32, 42⟩,
   ⟨some "D", [], 42, 52⟩, ⟨some "B", [], 52, 62⟩, ⟨some "D", [], 62, 72⟩,
   ⟨some "B", [], 72, 82⟩, ⟨some "D", [], 82, 92⟩]

/-- The per-speaker statistics of `overSplitSegments`. -/
def overSplitStats : List (Option String × SpeakerStats) :=
  [(some "A", ⟨3, 30, 0, 32⟩), (some "C", ⟨2, 2, 10, 22⟩),
   (some "B", ⟨3, 30, 32, 82⟩), (some "D", ⟨3, 30, 42, 92⟩)]

/-- The result of one `merge_similar_speakers` pass on `overSplitSegments`:
C is merged into A, whose three segments consolidate into one. -/
def onceMerged : List TranscriptSegment :=
  [⟨some "A", [], 0, 32⟩, ⟨some "B", [], 32, 42⟩, ⟨some "D", [], 42, 52⟩,
   ⟨some "B", [], 52, 62⟩, ⟨some "D", [], 62, 72⟩, ⟨some "B", [], 72, 82⟩,
   ⟨some "D", [], 82, 92⟩]

/-- The per-speaker statistics of `onceMerged`: A now has a single segment. -/
def onceMergedStats : List (Option String × SpeakerStats) :=
  [(some "A", ⟨1, 32, 0, 32⟩), (some "B", ⟨3, 30, 32, 82⟩), (some "D", ⟨3, 30, 42, 92⟩)]

/-! ### Supporting lemmas -/

theorem rebuildPass_len (d : ℚ) (l : List TranscriptSegment) : ∀ (nf : Bool)
    (racc : List TranscriptSegment) (ch : Bool),
    (rebuildPass d nf racc ch l).1.length ≤ racc.length + l.length := by
  induction l with
  | nil => intro nf racc ch; simp [rebuildPass]
  | cons seg rest ih =>
    intro nf racc ch
    cases nf with
    | false =>
      have e : rebuildPass d false racc ch (seg :: rest) =
          rebuildPass d true (seg :: racc) ch rest := rfl
      rw [e]
      have := ih true (seg :: racc) ch
      simp at this ⊢
      omega
    | true =>
      cases rest with
      | nil =>
        have e : rebuildPass d true racc ch [seg] =
            rebuildPass d true (seg :: racc) ch [] := rfl
        rw [e]
        simp [rebuildPass]
      | cons next rest2 =>
        cases racc with
        | nil =>
          have e : rebuildPass d true [] ch (seg :: next :: rest2) =
              rebuildPass d true [seg] ch (next :: rest2) := rfl
          rw [e]
          have := ih true [seg] ch
          simp at this ⊢
          omega
        | cons prev tail =>
          by_cases hcond : seg.stop - seg.start < d ∧ prev.speaker = next.speaker
          · have e : rebuildPass d true (prev :: tail) ch (seg :: next :: rest2) =
                rebuildPass d true
                  (⟨prev.speaker, prev.words ++ seg.words, prev.start, seg.stop⟩ :: tail) true
                  (next :: rest2) := by
              simp only [rebuildPass]
              rw [if_pos hcond]
            rw [e]
            have := ih true (⟨prev.speaker, prev.words ++ seg.words, prev.start, seg.stop⟩ :: tail) true
            simp at this ⊢
            omega
          · have e : rebuildPass d true (prev :: tail) ch (seg :: next :: rest2) =
                rebuildPass d true (seg :: prev :: tail) ch (next :: rest2) := by
              simp only [rebuildPass]
              rw [if_neg hcond]
            rw [e]
            have := ih true (seg :: prev :: tail) ch
            simp at this ⊢
            omega

theorem rebuildPass_flag (d : ℚ) (l : List TranscriptSegment) : ∀ (nf : Bool)
    (racc : List TranscriptSegment), (rebuildPass d nf racc true l).2 = true := by
  induction l with
  | nil => intro nf racc; simp [rebuildPass]
  | cons seg rest ih =>
    intro nf racc
    cases nf with
    | false => exact ih true (seg :: racc)
    | true =>
      cases rest with
      | nil =>
        have e : rebuildPass d true racc true [seg] =
            rebuildPass d true (seg :: racc) true [] := rfl
        rw [e]; simp [rebuildPass]
      | cons next rest2 =>
        cases racc with
        | nil => exact ih true [seg]
        | cons prev tail =>
          by_cases hcond : seg.stop - seg.start < d ∧ prev.speaker = next.speaker
          · have e : rebuildPass d true (prev :: tail) true (seg :: next :: rest2) =
                rebuildPass d true
                  (⟨prev.speaker, prev.words ++ seg.words, prev.start, seg.stop⟩ :: tail) true
                  (next :: rest2) := by
              simp only [rebuildPass]; rw [if_pos hcond]
            rw [e]; exact ih true _
          · have e : rebuildPass d true (prev :: tail) true (seg :: next :: rest2) =
                rebuildPass d true (seg :: prev :: tail) true (next :: rest2) := by
              simp only [rebuildPass]; rw [if_neg hcond]
            rw [e]; exact ih true _

theorem rebuildPass_lt (d : ℚ) (l : List TranscriptSegment) : ∀ (nf : Bool)
    (racc : List TranscriptSegment), (rebuildPass d nf racc false l).2 = true →
    (rebuildPass d nf racc false l).1.length < racc.length + l.length := by
  induction l with
  | nil => intro nf racc h; simp [rebuildPass] at h
  | cons seg rest ih =>
    intro nf racc h
    cases nf with
    | false =>
      have e : rebuildPass d false racc false (seg :: rest) =
          rebuildPass d true (seg :: racc) false rest := rfl
      rw [e] at h ⊢
      have := ih true (seg :: racc) h
      simp at this ⊢
      omega
    | true =>
      cases rest with
      | nil =>
        have e : rebuildPass d true racc false [seg] =
            rebuildPass d true (seg :: racc) false [] := rfl
        rw [e] at h
        simp [rebuildPass] at h
      | cons next rest2 =>
        cases racc with
        | nil =>
          have e : rebuildPass d true [] false (seg :: next :: rest2) =
              rebuildPass d true [seg] false (next :: rest2) := rfl
          rw [e] at h ⊢
          have := ih true [seg] h
          simp at this ⊢
          omega
        | cons prev tail =>
          by_cases hcond : seg.stop - seg.start < d ∧ prev.speaker = next.speaker
          · have e : rebuildPass d true (prev :: tail) false (seg :: next :: rest2) =
                rebuildPass d true
                  (⟨prev.speaker, prev.words ++ seg.words, prev.start, seg.stop⟩ :: tail) true
                  (next :: rest2) := by
              simp only [rebuildPass]; rw [if_pos hcond]
            rw [e]
            have := rebuildPass_len d (next :: rest2) true
              (⟨prev.speaker, prev.words ++ seg.words, prev.start, seg.stop⟩ :: tail) true
            simp at this ⊢
            omega
          · have e : rebuildPass d true (prev :: tail) false (seg :: next :: rest2) =
                rebuildPass d true (seg :: prev :: tail) false (next :: rest2) := by
              simp only [rebuildPass]; rw [if_neg hcond]
            rw [e] at h ⊢
            have := ih true (seg :: prev :: tail) h
            simp at this ⊢
            omega

theorem rebuildPass_id (d : ℚ) (l : List TranscriptSegment) : ∀ (nf : Bool)
    (racc : List TranscriptSegment), (rebuildPass d nf racc false l).2 = false →
    (rebuildPass d nf racc false l).1 = racc.reverse ++ l := by
  induction l with
  | nil => intro nf racc _; simp [rebuildPass]
  | cons seg rest ih =>
    intro nf racc h
    cases nf with
    | false =>
      have e : rebuildPass d false racc false (seg :: rest) =
          rebuildPass d true (seg :: racc) false rest := rfl
      rw [e] at h ⊢
      rw [ih true (seg :: racc) h]
      simp
    | true =>
      cases rest with
      | nil =>
        have e : rebuildPass d true racc false [seg] =
            rebuildPass d true (seg :: racc) false [] := rfl
        rw [e] at h ⊢
        simp [rebuildPass]
      | cons next rest2 =>
        cases racc with
        | nil =>
          have e : rebuildPass d true [] false (seg :: next :: rest2) =
              rebuildPass d true [seg] false (next :: rest2) := rfl
          rw [e] at h ⊢
          rw [ih true [seg] h]
          simp
        | cons prev tail =>
          by_cases hcond : seg.stop - seg.start < d ∧ prev.speaker = next.speaker
          · have e : rebuildPass d true (prev :: tail) false (seg :: next :: rest2) =
                rebuildPass d true
                  (⟨prev.speaker, prev.words ++ seg.words, prev.start, seg.stop⟩ :: tail) true
                  (next :: rest2) := by
              simp only [rebuildPass]; rw [if_pos hcond]
            rw [e] at h
            rw [rebuildPass_flag] at h
            exact absurd h (by simp)
          · have e : rebuildPass d true (prev :: tail) false (seg :: next :: rest2) =
                rebuildPass d true (seg :: prev :: tail) false (next :: rest2) := by
              simp only [rebuildPass]; rw [if_neg hcond]
            rw [e] at h ⊢
            rw [ih true (seg :: prev :: tail) h]
            simp

theorem rebuildPass_join (d : ℚ) (l : List TranscriptSegment) : ∀ (nf : Bool)
    (racc : List TranscriptSegment) (ch : Bool),
    segmentWords (rebuildPass d nf racc ch l).1 =
      segmentWords racc.reverse ++ segmentWords l := by
  induction l with
  | nil => intro nf racc ch; simp [rebuildPass, segmentWords]
  | cons seg rest ih =>
    intro nf racc ch
    cases nf with
    | false =>
      have e : rebuildPass d false racc ch (seg :: rest) =
          rebuildPass d true (seg :: racc) ch rest := rfl
      rw [e, ih true (seg :: racc) ch]
      simp [segmentWords]
    | true =>
      cases rest with
      | nil =>
        have e : rebuildPass d true racc ch [seg] =
            rebuildPass d true (seg :: racc) ch [] := rfl
        rw [e]
        simp [rebuildPass, segmentWords]
      | cons next rest2 =>
        cases racc with
        | nil =>
          have e : rebuildPass d true [] ch (seg :: next :: rest2) =
              rebuildPass d true [seg] ch (next :: rest2) := rfl
          rw [e, ih true [seg] ch]
          simp [segmentWords]
        | cons prev tail =>
          by_cases hcond : seg.stop - seg.start < d ∧ prev.speaker = next.speaker
          · have e : rebuildPass d true (prev :: tail) ch (seg :: next :: rest2) =
                rebuildPass d true
                  (⟨prev.speaker, prev.words ++ seg.words, prev.start, seg.stop⟩ :: tail) true
                  (next :: rest2) := by
              simp only [rebuildPass]; rw [if_pos hcond]
            rw [e, ih true _ true]
            simp [segmentWords]
          · have e : rebuildPass d true (prev :: tail) ch (seg :: next :: rest2) =
                rebuildPass d true (seg :: prev :: tail) ch (next :: rest2) := by
              simp only [rebuildPass]; rw [if_neg hcond]
            rw [e, ih true _ ch]
            simp [segmentWords]

theorem consolidatePass_len (l : List TranscriptSegment) : ∀ (racc : List TranscriptSegment)
    (ch : Bool), (consolidatePass racc ch l).1.length ≤ racc.length + l.length := by
  induction l with
  | nil => intro racc ch; simp [consolidatePass]
  | cons seg rest ih =>
    intro racc ch
    cases racc with
    | nil =>
      have e : consolidatePass [] ch (seg :: rest) = consolidatePass [seg] ch rest := rfl
      rw [e]
      have := ih [seg] ch
      simp at this ⊢
      omega
    | cons prev tail =>
      by_cases hcond : prev.speaker = seg.speaker
      · have e : consolidatePass (prev :: tail) ch (seg :: rest) =
            consolidatePass (⟨prev.speaker, prev.words ++ seg.words, prev.start, seg.stop⟩ :: tail)
              true rest := by
          simp only [consolidatePass]; rw [if_pos hcond]
        rw [e]
        have := ih (⟨prev.speaker, prev.words ++ seg.words, prev.start, seg.stop⟩ :: tail) true
        simp at this ⊢
        omega
      · have e : consolidatePass (prev :: tail) ch (seg :: rest) =
            consolidatePass (seg :: prev :: tail) ch rest := by
          simp only [consolidatePass]; rw [if_neg hcond]
        rw [e]
        have := ih (seg :: prev :: tail) ch
        simp at this ⊢
        omega

theorem consolidatePass_flag (l : List TranscriptSegment) : ∀ (racc : List TranscriptSegment),
    (consolidatePass racc true l).2 = true := by
  induction l with
  | nil => intro racc; simp [consolidatePass]
  | cons seg rest ih =>
    intro racc
    cases racc with
    | nil => exact ih [seg]
    | cons prev tail =>
      by_cases hcond : prev.speaker = seg.speaker
      · have e : consolidatePass (prev :: tail) true (seg :: rest) =
            consolidatePass (⟨prev.speaker, prev.words ++ seg.words, prev.start, seg.stop⟩ :: tail)
              true rest := by
          simp only [consolidatePass]; rw [if_pos hcond]
        rw [e]; exact ih _
      · have e : consolidatePass (prev :: tail) true (seg :: rest) =
            consolidatePass (seg :: prev :: tail) true rest := by
          simp only [consolidatePass]; rw [if_neg hcond]
        rw [e]; exact ih _

theorem consolidatePass_lt (l : List TranscriptSegment) : ∀ (racc : List TranscriptSegment),
    (consolidatePass racc false l).2 = true →
    (consolidatePass racc false l).1.length < racc.length + l.length := by
  induction l with
  | nil => intro racc h; simp [consolidatePass] at h
  | cons seg rest ih =>
    intro racc h
    cases racc with
    | nil =>
      have e : consolidatePass [] false (seg :: rest) = consolidatePass [seg] false rest := rfl
      rw [e] at h ⊢
      have := ih [seg] h
      simp at this ⊢
      omega
    | cons prev tail =>
      by_cases hcond : prev.speaker = seg.speaker
      · have e : consolidatePass (prev :: tail) false (seg :: rest) =
            consolidatePass (⟨prev.speaker, prev.words ++ seg.words, prev.start, seg.stop⟩ :: tail)
              true rest := by
          simp only [consolidatePass]; rw [if_pos hcond]
        rw [e]
        have := consolidatePass_len rest
          (⟨prev.speaker, prev.words ++ seg.words, prev.start, seg.stop⟩ :: tail) true
        simp at this ⊢
        omega
      · have e : consolidatePass (prev :: tail) false (seg :: rest) =
            consolidatePass (seg :: prev :: tail) false rest := by
          simp only [consolidatePass]; rw [if_neg hcond]
        rw [e] at h ⊢
        have := ih (seg :: prev :: tail) h
        simp at this ⊢
        omega

theorem consolidatePass_id (l : List TranscriptSegment) : ∀ (racc : List TranscriptSegment),
    (consolidatePass racc false l).2 = false →
    (consolidatePass racc false l).1 = racc.reverse ++ l := by
  induction l with
  | nil => intro racc _; simp [consolidatePass]
  | cons seg rest ih =>
    intro racc h
    cases racc with
    | nil =>
      have e : consolidatePass [] false (seg :: rest) = consolidatePass [seg] false rest := rfl
      rw [e] at h ⊢
      rw [ih [seg] h]
      simp
    | cons prev tail =>
      by_cases hcond : prev.speaker = seg.speaker
      · have e : consolidatePass (prev :: tail) false (seg :: rest) =
            consolidatePass (⟨prev.speaker, prev.words ++ seg.words, prev.start, seg.stop⟩ :: tail)
              true rest := by
          simp only [consolidatePass]; rw [if_pos hcond]
        rw [e] at h
        rw [consolidatePass_flag] at h
        exact absurd h (by simp)
      · have e : consolidatePass (prev :: tail) false (seg :: rest) =
            consolidatePass (seg :: prev :: tail) false rest := by
          simp only [consolidatePass]; rw [if_neg hcond]
        rw [e] at h ⊢
        rw [ih (seg :: prev :: tail) h]
        simp

theorem consolidatePass_join (l : List TranscriptSegment) : ∀ (racc : List TranscriptSegment)
    (ch : Bool), segmentWords (consolidatePass racc ch l).1 =
      segmentWords racc.reverse ++ segmentWords l := by
  induction l with
  | nil => intro racc ch; simp [consolidatePass, segmentWords]
  | cons seg rest ih =>
    intro racc ch
    cases racc with
    | nil =>
      have e : consolidatePass [] ch (seg :: rest) = consolidatePass [seg] ch rest := rfl
      rw [e, ih [seg] ch]
      simp [segmentWords]
    | cons prev tail =>
      by_cases hcond : prev.speaker = seg.speaker
      · have e : consolidatePass (prev :: tail) ch (seg :: rest) =
            consolidatePass (⟨prev.speaker, prev.words ++ seg.words, prev.start, seg.stop⟩ :: tail)
              true rest := by
          simp only [consolidatePass]; rw [if_pos hcond]
        rw [e, ih _ true]
        simp [segmentWords]
      · have e : consolidatePass (prev :: tail) ch (seg :: rest) =
            consolidatePass (seg :: prev :: tail) ch rest := by
          simp only [consolidatePass]; rw [if_neg hcond]
        rw [e, ih _ ch]
        simp [segmentWords]

theorem consolidatePass_chain (l : List TranscriptSegment) : ∀ (racc : List TranscriptSegment)
    (ch : Bool), List.Chain' (fun a b => a.speaker ≠ b.speaker) racc →
    List.Chain' (fun a b => a.speaker ≠ b.speaker) (consolidatePass racc ch l).1 := by
  induction l with
  | nil =>
    intro racc ch h
    simp only [consolidatePass]
    rw [List.chain'_reverse]
    exact List.Chain'.imp (fun a b hab => Ne.symm hab) h

  | cons seg rest ih =>
    intro racc ch h
    cases racc with
    | nil =>
      have e : consolidatePass [] ch (seg :: rest) = consolidatePass [seg] ch rest := rfl
      rw [e]
      exact ih [seg] ch (List.chain'_singleton seg)
    | cons prev tail =>
      by_cases hcond : prev.speaker = seg.speaker
      · have e : consolidatePass (prev :: tail) ch (seg :: rest) =
            consolidatePass (⟨prev.speaker, prev.words ++ seg.words, prev.start, seg.stop⟩ :: tail)
              true rest := by
          simp only [consolidatePass]; rw [if_pos hcond]
        rw [e]
        refine ih _ true ?_
        rw [List.chain'_cons'] at h ⊢
        exact ⟨h.1, h.2⟩
      · have e : consolidatePass (prev :: tail) ch (seg :: rest) =
            consolidatePass (seg :: prev :: tail) ch rest := by
          simp only [consolidatePass]; rw [if_neg hcond]
        rw [e]
        refine ih _ ch ?_
        rw [List.chain'_cons]
        exact ⟨fun hx => hcond hx.symm, h⟩


theorem microPass_lt (d : ℚ) (segments : List TranscriptSegment)
    (h : (microPass d segments).2 = true) :
    (microPass d segments).1.length < segments.length := by
  unfold microPass at h ⊢
  cases hr : rebuildPass d false [] false segments with
  | mk nm ch =>
    rw [hr] at h
    dsimp only at h ⊢
    cases ch with
    | true =>
      have h1 := rebuildPass_lt d segments false [] (by rw [hr])
      have h2 := consolidatePass_len nm [] true
      rw [hr] at h1
      simp at h1 h2 ⊢
      omega
    | false =>
      have h1 := rebuildPass_id d segments false [] (by rw [hr])
      rw [hr] at h1
      simp at h1
      have h2 := consolidatePass_lt nm [] h
      simp at h2
      rw [← h1]
      exact h2

theorem microPass_id (d : ℚ) (segments : List TranscriptSegment)
    (h : (microPass d segments).2 = false) :
    (microPass d segments).1 = segments := by
  unfold microPass at h ⊢
  cases hr : rebuildPass d false [] false segments with
  | mk nm ch =>
    rw [hr] at h
    dsimp only at h ⊢
    cases ch with
    | true =>
      rw [consolidatePass_flag] at h
      exact absurd h (by simp)
    | false =>
      have h1 := rebuildPass_id d segments false [] (by rw [hr])
      rw [hr] at h1
      simp at h1
      have h2 := consolidatePass_id nm [] h
      rw [h2, h1]
      simp

theorem microPass_chain (d : ℚ) (segments : List TranscriptSegment) :
    List.Chain' (fun a b => a.speaker ≠ b.speaker) (microPass d segments).1 := by
  unfold microPass
  cases hr : rebuildPass d false [] false segments with
  | mk nm ch => exact consolidatePass_chain _ [] _ List.chain'_nil

theorem microPass_join (d : ℚ) (segments : List TranscriptSegment) :
    segmentWords (microPass d segments).1 = segmentWords segments := by
  unfold microPass
  cases hr : rebuildPass d false [] false segments with
  | mk nm ch =>
    have h1 := rebuildPass_join d segments false [] false
    rw [hr] at h1
    simp [segmentWords] at h1
    rw [consolidatePass_join]
    simpa [segmentWords] using h1

theorem microLoop_chain (d : ℚ) (fuel : Nat) : ∀ (segments : List TranscriptSegment),
    List.Chain' (fun a b => a.speaker ≠ b.speaker) segments →
    List.Chain' (fun a b => a.speaker ≠ b.speaker) (microLoop d fuel segments) := by
  induction fuel with
  | zero => intro segments h; exact h
  | succ n ih =>
    intro segments h
    unfold microLoop
    cases hp : microPass d segments with
    | mk out flag =>
      have hc := microPass_chain d segments
      rw [hp] at hc
      cases flag with
      | true => exact ih out hc
      | false => exact hc

theorem microLoop_join (d : ℚ) (fuel : Nat) : ∀ (segments : List TranscriptSegment),
    segmentWords (microLoop d fuel segments) = segmentWords segments := by
  induction fuel with
  | zero => intro segments; rfl
  | succ n ih =>
    intro segments
    unfold microLoop
    cases hp : microPass d segments with
    | mk out flag =>
      have hj := microPass_join d segments
      rw [hp] at hj
      cases flag with
      | true => rw [ih out]; exact hj
      | false => exact hj

theorem microLoop_fix (d : ℚ) (fuel : Nat) : ∀ (segments : List TranscriptSegment),
    segments.length < fuel → (microPass d (microLoop d fuel segments)).2 = false := by
  induction fuel with
  | zero => intro segments h; omega
  | succ n ih =>
    intro segments h
    unfold microLoop
    cases hp : microPass d segments with
    | mk out flag =>
      cases flag with
      | true =>
        refine ih out ?_
        have := microPass_lt d segments (by rw [hp])
        rw [hp] at this
        simp at this
        omega
      | false =>
        have hid := microPass_id d segments (by rw [hp])
        rw [hp] at hid
        simp at hid
        rw [hid, hp]

theorem merge_micro_chain (d : ℚ) (segments : List TranscriptSegment)
    (h : List.Chain' (fun a b => a.speaker ≠ b.speaker) segments) :
    List.Chain' (fun a b => a.speaker ≠ b.speaker) (merge_micro_segments segments d) := by
  unfold merge_micro_segments
  split
  · exact h
  · exact microLoop_chain d (segments.length + 1) segments h

theorem merge_micro_join (d : ℚ) (segments : List TranscriptSegment) :
    segmentWords (merge_micro_segments segments d) = segmentWords segments := by
  unfold merge_micro_segments
  split
  · rfl
  · exact microLoop_join d (segments.length + 1) segments

theorem merge_micro_fix (d : ℚ) (segments : List TranscriptSegment)
    (h : 2 < segments.length) :
    (microPass d (merge_micro_segments segments d)).2 = false := by
  unfold merge_micro_segments
  rw [if_neg (by omega)]
  exact microLoop_fix d (segments.length + 1) segments (by omega)

theorem merge_similar_chain (segments : List TranscriptSegment) (m : Nat) (t : ℚ)
    (h : List.Chain' (fun a b => a.speaker ≠ b.speaker) segments) :
    List.Chain' (fun a b => a.speaker ≠ b.speaker) (merge_similar_speakers segments m t) := by
  unfold merge_similar_speakers
  dsimp only
  split
  · exact h
  · split
    · exact h
    · split
      · exact h
      · split
        · exact h
        · exact consolidatePass_chain _ [] _ List.chain'_nil

theorem relabel_shape (mergeMap : List (Option String × Option String)) :
    ∀ (segments : List TranscriptSegment),
    (segmentWords (relabelSegments mergeMap segments)).map wordShape =
      (segmentWords segments).map wordShape := by
  intro segments
  induction segments with
  | nil => rfl
  | cons seg rest ih =>
    simp only [relabelSegments, List.map_cons, segmentWords, List.flatten_cons, List.map_append]
    simp only [relabelSegments, segmentWords] at ih
    rw [ih]
    congr 1
    cases (mergeMap.find? (fun p => if p.1 = seg.speaker then true else false)).map
        (fun p => p.2) with
    | none => rfl
    | some ns => simp [wordShape]

theorem merge_similar_shape (segments : List TranscriptSegment) (m : Nat) (t : ℚ) :
    (segmentWords (merge_similar_speakers segments m t)).map wordShape =
      (segmentWords segments).map wordShape := by
  unfold merge_similar_speakers
  dsimp only
  split
  · rfl
  · split
    · rfl
    · split
      · rfl
      · split
        · rfl
        · rw [consolidateSegments, consolidatePass_join]
          simp only [List.reverse_nil]
          rw [show segmentWords [] = [] from rfl, List.nil_append]
          exact relabel_shape _ segments

theorem groupAux_join : ∀ (l : List Word) (sp : Option String) (cur : List Word) (st : ℚ),
    segmentWords (groupAux sp cur st l) = cur ++ l := by
  intro l
  induction l with
  | nil => intro sp cur st; simp [groupAux, segmentWords]
  | cons w ws ih =>
    intro sp cur st
    by_cases hc : w.speaker = sp
    · rw [groupAux, if_pos hc, ih]
      simp
    · rw [groupAux, if_neg hc]
      simp only [segmentWords, List.map_cons, List.flatten_cons]
      have := ih w.speaker [w] w.start
      simp only [segmentWords] at this
      rw [this]
      simp

theorem groupAux_head : ∀ (l : List Word) (sp : Option String) (cur : List Word) (st : ℚ),
    ∃ seg tail, groupAux sp cur st l = seg :: tail ∧ seg.speaker = sp := by
  intro l
  induction l with
  | nil => intro sp cur st; exact ⟨_, [], rfl, rfl⟩
  | cons w ws ih =>
    intro sp cur st
    by_cases hc : w.speaker = sp
    · rw [groupAux, if_pos hc]
      exact ih sp (cur ++ [w]) st
    · rw [groupAux, if_neg hc]
      exact ⟨_, _, rfl, rfl⟩

theorem groupAux_chain : ∀ (l : List Word) (sp : Option String) (cur : List Word) (st : ℚ),
    List.Chain' (fun a b => a.speaker ≠ b.speaker) (groupAux sp cur st l) := by
  intro l
  induction l with
  | nil => intro sp cur st; simp [groupAux]
  | cons w ws ih =>
    intro sp cur st
    by_cases hc : w.speaker = sp
    · rw [groupAux, if_pos hc]
      exact ih sp (cur ++ [w]) st
    · rw [groupAux, if_neg hc]
      rw [List.chain'_cons']
      refine ⟨?_, ih w.speaker [w] w.start⟩
      intro y hy
      obtain ⟨seg, tail, he, hsp⟩ := groupAux_head ws w.speaker [w] w.start
      rw [he] at hy
      simp at hy
      rw [← hy, hsp]
      exact fun hx => hc hx.symm

theorem groupAux_const : ∀ (l : List Word) (sp : Option String) (cur : List Word) (st : ℚ),
    (∀ w ∈ l, w.speaker = sp) →
    groupAux sp cur st l = [⟨sp, cur ++ l, st, lastStop (cur ++ l)⟩] := by
  intro l
  induction l with
  | nil => intro sp cur st _; simp [groupAux]
  | cons w ws ih =>
    intro sp cur st h
    rw [groupAux, if_pos (h w (by simp))]
    rw [ih sp (cur ++ [w]) st (fun x hx => h x (by simp [hx]))]
    simp

theorem firstMinHolds_le {α : Type} (f : α → ℚ) (l : List α) (x : α)
    (h : FirstMinHolds f l x) : ∀ z ∈ l, f x ≤ f z := by
  obtain ⟨l₁, l₂, rfl, h1, h2⟩ := h
  intro z hz
  rcases List.mem_append.1 hz with hz | hz
  · exact le_of_lt (h1 z hz)
  · rcases List.mem_cons.1 hz with rfl | hz
    · exact le_refl _
    · exact h2 z hz

theorem firstMinBy_spec {α : Type} (f : α → ℚ) : ∀ (xs : List α) (x : α),
    FirstMinHolds f (x :: xs) (firstMinBy f x xs) := by
  intro xs
  induction xs with
  | nil => intro x; exact ⟨[], [], rfl, by simp, by simp⟩
  | cons y ys ih =>
    intro x
    have e : firstMinBy f x (y :: ys) = firstMinBy f (if f y < f x then y else x) ys := rfl
    rw [e]
    by_cases hc : f y < f x
    · rw [if_pos hc]
      obtain ⟨l₁, l₂, hdec, h1, h2⟩ := ih y
      have hle : f (firstMinBy f y ys) ≤ f y :=
        firstMinHolds_le f (y :: ys) _ ⟨l₁, l₂, hdec, h1, h2⟩ y (by simp)
      refine ⟨x :: l₁, l₂, ?_, ?_, h2⟩
      · rw [List.cons_append, ← hdec]
      · intro z hz
        rcases List.mem_cons.1 hz with rfl | hz
        · exact lt_of_le_of_lt hle hc
        · exact h1 z hz
    · rw [if_neg hc]
      push_neg at hc
      obtain ⟨l₁, l₂, hdec, h1, h2⟩ := ih x
      cases l₁ with
      | nil =>
        simp only [List.nil_append] at hdec
        injection hdec with hm hys
        refine ⟨[], y :: l₂, ?_, by simp, ?_⟩
        · rw [← hm, hys]; simp
        · intro z hz
          rcases List.mem_cons.1 hz with rfl | hz
          · rw [← hm]; exact hc
          · exact h2 z hz
      | cons a t =>
        simp only [List.cons_append] at hdec
        injection hdec with ha hys
        refine ⟨x :: y :: t, l₂, ?_, ?_, h2⟩
        · rw [List.cons_append, List.cons_append, ← hys]
        · intro z hz
          have hmx : f (firstMinBy f x ys) < f x := h1 a (by simp) |>.trans_eq (by rw [← ha])
          rcases List.mem_cons.1 hz with rfl | hz
          · exact hmx
          · rcases List.mem_cons.1 hz with rfl | hz
            · exact lt_of_lt_of_le hmx hc
            · exact h1 z (by simp [hz])

theorem firstMaxHolds_ge {α : Type} (f : α → ℚ) (l : List α) (x : α)
    (h : FirstMaxHolds f l x) : ∀ z ∈ l, f z ≤ f x := by
  obtain ⟨l₁, l₂, rfl, h1, h2⟩ := h
  intro z hz
  rcases List.mem_append.1 hz with hz | hz
  · exact le_of_lt (h1 z hz)
  · rcases List.mem_cons.1 hz with rfl | hz
    · exact le_refl _
    · exact h2 z hz

theorem firstMaxBy_spec {α : Type} (f : α → ℚ) : ∀ (xs : List α) (x : α),
    FirstMaxHolds f (x :: xs) (firstMaxBy f x xs) := by
  intro xs
  induction xs with
  | nil => intro x; exact ⟨[], [], rfl, by simp, by simp⟩
  | cons y ys ih =>
    intro x
    have e : firstMaxBy f x (y :: ys) = firstMaxBy f (if f y > f x then y else x) ys := rfl
    rw [e]
    by_cases hc : f y > f x
    · rw [if_pos hc]
      obtain ⟨l₁, l₂, hdec, h1, h2⟩ := ih y
      have hle : f y ≤ f (firstMaxBy f y ys) :=
        firstMaxHolds_ge f (y :: ys) _ ⟨l₁, l₂, hdec, h1, h2⟩ y (by simp)
      refine ⟨x :: l₁, l₂, ?_, ?_, h2⟩
      · rw [List.cons_append, ← hdec]
      · intro z hz
        rcases List.mem_cons.1 hz with rfl | hz
        · exact lt_of_lt_of_le hc hle
        · exact h1 z hz
    · rw [if_neg hc]
      push_neg at hc
      obtain ⟨l₁, l₂, hdec, h1, h2⟩ := ih x
      cases l₁ with
      | nil =>
        simp only [List.nil_append] at hdec
        injection hdec with hm hys
        refine ⟨[], y :: l₂, ?_, by simp, ?_⟩
        · rw [← hm, hys]; simp
        · intro z hz
          rcases List.mem_cons.1 hz with rfl | hz
          · rw [← hm]; exact hc
          · exact h2 z hz
      | cons a t =>
        simp only [List.cons_append] at hdec
        injection hdec with ha hys
        refine ⟨x :: y :: t, l₂, ?_, ?_, h2⟩
        · rw [List.cons_append, List.cons_append, ← hys]
        · intro z hz
          have hmx : f x < f (firstMaxBy f x ys) := by
            have := h1 a (by simp)
            rw [← ha] at this
            exact this
          rcases List.mem_cons.1 hz with rfl | hz
          · exact hmx
          · rcases List.mem_cons.1 hz with rfl | hz
            · exact lt_of_le_of_lt hc hmx
            · exact h1 z (by simp [hz])

theorem parseRttmLines_ok : ∀ (ls : List (List Char)),
    (∀ line ∈ ls, rttmRelevant line = true → rttmNumeric line = true) →
    parseRttmLines ls = .ok ((ls.filter rttmGood).map lineSeg) := by
  intro ls
  induction ls with
  | nil => intro _; rfl
  | cons line rest ih =>
    intro h
    have hrest := ih (fun l hl => h l (by simp [hl]))
    by_cases h1 : pyStrip line = [] ∨ ¬ startsWithKeyword line
    · have hg : rttmGood line = false := by
        simp only [rttmGood, rttmRelevant, if_pos h1]
        simp
      rw [parseRttmLines, if_pos h1, hrest, List.filter_cons, hg]
      simp
    · by_cases h2 : (pyFields line).length < 8
      · have hg : rttmGood line = false := by
          simp only [rttmGood, rttmRelevant, if_neg h1, if_pos h2]
          simp
        rw [parseRttmLines, if_neg h1, if_pos h2, hrest, List.filter_cons, hg]
        simp
      · have hrel : rttmRelevant line = true := by
          simp only [rttmRelevant, if_neg h1, if_neg h2]
        have hnum := h line (by simp) hrel
        have hg : rttmGood line = true := by
          simp [rttmGood, hrel, hnum]
        simp only [rttmNumeric, Bool.and_eq_true, Option.isSome_iff_exists] at hnum
        obtain ⟨⟨st, hst⟩, ⟨du, hdu⟩⟩ := hnum
        rw [parseRttmLines, if_neg h1, if_neg h2]
        simp only [hst, hdu, hrest, Except.map]
        rw [List.filter_cons, hg]
        simp only [if_pos rfl]
        simp only [List.getD_eq_getElem?_getD] at hst hdu
        simp [lineSeg, List.getD_eq_getElem?_getD, hst, hdu]

/-- C4: `merge_micro_segments` implements the sandwich rule.  For a segment
`b` strictly between `a` and `c` whose duration is below `min_duration`: when
the flanking speakers agree, `b` is absorbed (words appended in order, the
merged segment running from `a.start` to `c.stop`, subsequently consolidated
with `c`); when all three speakers are pairwise distinct, the list is returned
unchanged. -/
theorem merge_micro_sandwich (min_duration : ℚ) (a b c : TranscriptSegment)
    (hb : b.stop - b.start < min_duration) :
    (a.speaker = c.speaker →
      merge_micro_segments [a, b, c] min_duration =
        [⟨a.speaker, a.words ++ b.words ++ c.words, a.start, c.stop⟩]) ∧
    (a.speaker ≠ c.speaker → a.speaker ≠ b.speaker → b.speaker ≠ c.speaker →
      merge_micro_segments [a, b, c] min_duration = [a, b, c]) := by
  constructor
  · intro hac
    simp [merge_micro_segments, microLoop, microPass, rebuildPass, consolidatePass, hb, hac,
      List.append_assoc]
  · intro h1 h2 h3
    simp [merge_micro_segments, microLoop, microPass, rebuildPass, consolidatePass, hb, h1,
      h2, h3]


set_option maxHeartbeats 1600000 in
/-- C3: the case analysis of `assign_speakers_to_words` on a non-empty
speaker-segment list.  Each word is processed independently; a segment
overlaps a word iff not (`word.end ≤ seg.start` or `word.start ≥ seg.end`);
with no overlapping segment the word receives the speaker of the first
segment minimising `min(|seg.start−word.start|, |seg.end−word.end|)`; with
exactly one it receives that segment's speaker; with several it receives the
speaker of the first segment maximising the overlap duration (ties resolved
by the first maximum in iteration order). -/
theorem assign_speakers_case_analysis
    (words : List Word) (speaker_segments : List SpeakerSegment)
    (h : speaker_segments ≠ []) :
    assign_speakers_to_words words speaker_segments = words.map (assignSpeaker speaker_segments)
    ∧ (∀ (s : SpeakerSegment) (w : Word),
        s.overlaps_with w = true ↔ ¬ (w.stop ≤ s.start ∨ w.start ≥ s.stop))
    ∧ ∀ w : Word,
      ((speaker_segments.filter (fun sg => sg.overlaps_with w)) = [] →
        ∃ s, FirstMinHolds (closenessKey w) speaker_segments s ∧
          assignSpeaker speaker_segments w = { w with speaker := some s.speaker })
      ∧ (∀ s, (speaker_segments.filter (fun sg => sg.overlaps_with w)) = [s] →
          assignSpeaker speaker_segments w = { w with speaker := some s.speaker })
      ∧ (2 ≤ (speaker_segments.filter (fun sg => sg.overlaps_with w)).length →
          ∃ s, FirstMaxHolds (fun sg => sg.overlap_duration w)
              (speaker_segments.filter (fun sg => sg.overlaps_with w)) s ∧
            assignSpeaker speaker_segments w = { w with speaker := some s.speaker }) := by
  refine ⟨?_, ?_, ?_⟩
  · rw [assign_speakers_to_words, if_neg h]
  · intro s w
    rw [SpeakerSegment.overlaps_with]
    by_cases hc : w.stop ≤ s.start ∨ w.start ≥ s.stop
    · rw [if_pos hc]; simp [hc]
    · rw [if_neg hc]; simp [hc]
  · intro w
    refine ⟨?_, ?_, ?_⟩
    · intro hf
      cases hs : speaker_segments with
      | nil => exact absurd hs h
      | cons s rest =>
        subst hs
        refine ⟨firstMinBy (closenessKey w) s rest,
          firstMinBy_spec (closenessKey w) rest s, ?_⟩
        simp only [assignSpeaker, hf]
    · intro s hf
      simp only [assignSpeaker, hf]
    · intro hlen
      cases hf : speaker_segments.filter (fun sg => sg.overlaps_with w) with
      | nil =>
        rw [hf] at hlen
        simp at hlen
      | cons s1 t =>
        cases t with
        | nil =>
          rw [hf] at hlen
          simp at hlen
        | cons s2 more =>
          have hq : FirstMaxHolds (fun sg => sg.overlap_duration w) (s1 :: s2 :: more)
              (firstMaxBy (fun sg => sg.overlap_duration w) s1 (s2 :: more)) :=
            firstMaxBy_spec (fun sg => sg.overlap_duration w) (s2 :: more) s1
          have hv : assignSpeaker speaker_segments w = { w with speaker := some (firstMaxBy (fun sg => sg.overlap_duration w) s1 (s2 :: more)).speaker } := by
            simp only [assignSpeaker, hf]
          exact ⟨firstMaxBy (fun sg => sg.overlap_duration w) s1 (s2 :: more), hq, hv⟩

/-- Any of the early-return guards of `merge_similar_speakers` makes it the
identity. -/
theorem merge_similar_noop (segments : List TranscriptSegment) (m : Nat) (t : ℚ)
    (h : segments = [] ∨ (speakerStats segments).length < 2 ∨
      grandTotal (speakerStats segments) = 0 ∨
      minorKeys (speakerStats segments) m t (grandTotal (speakerStats segments)) = [] ∨
      dominantKeys (speakerStats segments) m t (grandTotal (speakerStats segments)) = []) :
    merge_similar_speakers segments m t = segments := by
  unfold merge_similar_speakers
  rcases h with h | h | h | h | h <;> simp_all

theorem merge_similar_run (segments : List TranscriptSegment) (m : Nat) (t : ℚ)
    (stats : List (Option String × SpeakerStats)) (total : ℚ)
    (minor dominant : List (Option String))
    (hne : segments ≠ []) (hs : speakerStats segments = stats)
    (hlen : ¬ stats.length < 2) (ht : grandTotal stats = total) (h0 : ¬ total = 0)
    (hm : minorKeys stats m t total = minor) (hd : dominantKeys stats m t total = dominant)
    (hmne : minor ≠ []) (hdne : dominant ≠ []) :
    merge_similar_speakers segments m t =
      consolidateSegments (relabelSegments (buildMergeMap stats minor dominant) segments) := by
  unfold merge_similar_speakers
  simp only [hs, ht, hm, hd]
  simp [hne, hlen, h0, hmne, hdne]

theorem overSplitStats_eq : speakerStats overSplitSegments = overSplitStats := by
  simp [overSplitSegments, overSplitStats, speakerStats, statsUpsert, updateStats,
    min_def, max_def]
  norm_num

theorem overSplit_minor : minorKeys overSplitStats 3 (1/20) 92 = [some "C"] := by
  simp [overSplitStats, minorKeys, isMinorStats]
  norm_num

theorem overSplit_dominant :
    dominantKeys overSplitStats 3 (1/20) 92 = [some "A", some "B", some "D"] := by
  simp [overSplitStats, dominantKeys, isMinorStats]
  norm_num

theorem overSplit_mergeMap :
    buildMergeMap overSplitStats [some "C"] [some "A", some "B", some "D"] =
      [(some "C", some "A")] := by
  simp [overSplitStats, buildMergeMap, statsFor, mergeTarget, candidatesFor,
    speakerGap, candLE, List.insertionSort, List.orderedInsert, min_def, max_def,
    List.filterMap_cons, List.filterMap_nil, List.find?, Option.bind, Function.comp]
  norm_num [candLE]

theorem overSplit_relabel : relabelSegments [(some "C", some "A")] overSplitSegments =
    [⟨some "A", [], 0, 10⟩, ⟨some "A", [], 10, 11⟩, ⟨some "A", [], 11, 21⟩,
     ⟨some "A", [], 21, 22⟩, ⟨some "A", [], 22, 32⟩, ⟨some "B", [], 32, 42⟩,
     ⟨some "D", [], 42, 52⟩, ⟨some "B", [], 52, 62⟩, ⟨some "D", [], 62, 72⟩,
     ⟨some "B", [], 72, 82⟩, ⟨some "D", [], 82, 92⟩] := by
  simp [overSplitSegments, relabelSegments]

theorem overSplit_consolidate : consolidateSegments
    [⟨some "A", [], 0, 10⟩, ⟨some "A", [], 10, 11⟩, ⟨some "A", [], 11, 21⟩,
     ⟨some "A", [], 21, 22⟩, ⟨some "A", [], 22, 32⟩, ⟨some "B", [], 32, 42⟩,
     ⟨some "D", [], 42, 52⟩, ⟨some "B", [], 52, 62⟩, ⟨some "D", [], 62, 72⟩,
     ⟨some "B", [], 72, 82⟩, ⟨some "D", [], 82, 92⟩] = onceMerged := by
  simp [consolidateSegments, consolidatePass, onceMerged]

theorem overSplit_merge_once : merge_similar_speakers overSplitSegments 3 (1/20) = onceMerged := by
  rw [merge_similar_run overSplitSegments 3 (1/20) overSplitStats 92 [some "C"]
    [some "A", some "B", some "D"] (by simp [overSplitSegments]) overSplitStats_eq
    (by norm_num [overSplitStats]) (by norm_num [overSplitStats, grandTotal]) (by norm_num)
    overSplit_minor overSplit_dominant (by simp) (by simp)]
  rw [overSplit_mergeMap, overSplit_relabel, overSplit_consolidate]

theorem onceMergedStats_eq : speakerStats onceMerged = onceMergedStats := by
  simp [onceMerged, onceMergedStats, speakerStats, statsUpsert, updateStats, min_def, max_def]
  norm_num

theorem onceMerged_minor : minorKeys onceMergedStats 3 (1/20) 92 = [some "A"] := by
  simp [onceMergedStats, minorKeys, isMinorStats]
  norm_num

theorem onceMerged_dominant : dominantKeys onceMergedStats 3 (1/20) 92 = [some "B", some "D"] := by
  simp [onceMergedStats, dominantKeys, isMinorStats]
  norm_num

theorem onceMerged_mergeMap : buildMergeMap onceMergedStats [some "A"] [some "B", some "D"] =
    [(some "A", some "B")] := by
  simp [onceMergedStats, buildMergeMap, statsFor, mergeTarget, candidatesFor,
    speakerGap, candLE, List.insertionSort, List.orderedInsert, min_def, max_def,
    List.filterMap_cons, List.filterMap_nil, List.find?, Option.bind, Function.comp]
  norm_num [candLE]

theorem onceMerged_merge : merge_similar_speakers onceMerged 3 (1/20) =
    [⟨some "B", [], 0, 42⟩, ⟨some "D", [], 42, 52⟩, ⟨some "B", [], 52, 62⟩,
     ⟨some "D", [], 62, 72⟩, ⟨some "B", [], 72, 82⟩, ⟨some "D", [], 82, 92⟩] := by
  rw [merge_similar_run onceMerged 3 (1/20) onceMergedStats 92 [some "A"]
    [some "B", some "D"] (by simp [onceMerged]) onceMergedStats_eq
    (by norm_num [onceMergedStats]) (by norm_num [onceMergedStats, grandTotal]) (by norm_num)
    onceMerged_minor onceMerged_dominant (by simp) (by simp)]
  rw [onceMerged_mergeMap]
  simp [onceMerged, relabelSegments, consolidateSegments, consolidatePass]

/-- C1 (counterexample): `merge_similar_speakers` with the default thresholds
is not idempotent.  On `overSplitSegments` the first application merges minor
speaker C into A and consolidates A's segments into one; on that output
speaker A has a single segment, so A itself becomes minor and the second
application merges it into B. -/
theorem merge_similar_speakers_not_idempotent :
    merge_similar_speakers (merge_similar_speakers overSplitSegments 3 (1/20)) 3 (1/20) ≠
      merge_similar_speakers overSplitSegments 3 (1/20) := by
  rw [overSplit_merge_once, onceMerged_merge]
  intro h
  exact absurd (congrArg List.length h) (by simp [onceMerged])

/-- C5: no two adjacent output segments share a speaker label:
`group_words_by_speaker` establishes this unconditionally, and
`merge_micro_segments` and `merge_similar_speakers` preserve it (their
early-return branches can only hand back an input that already satisfied
it). -/
theorem alignment_stages_no_adjacent_same_speaker
    (words : List Word) (min_duration : ℚ) (m : Nat) (t : ℚ)
    (segs1 segs2 : List TranscriptSegment)
    (h1 : noAdjacentSameSpeaker segs1) (h2 : noAdjacentSameSpeaker segs2) :
    noAdjacentSameSpeaker (group_words_by_speaker words) ∧
    noAdjacentSameSpeaker (merge_micro_segments segs1 min_duration) ∧
    noAdjacentSameSpeaker (merge_similar_speakers segs2 m t) := by
  refine ⟨?_, merge_micro_chain min_duration segs1 h1, merge_similar_chain segs2 m t h2⟩
  cases words with
  | nil => simp [group_words_by_speaker, noAdjacentSameSpeaker]
  | cons w ws => exact groupAux_chain ws w.speaker [w] w.start

/-- C9: every stage conserves the words, element for element and in order:
`group_words_by_speaker` partitions exactly its input word list,
`merge_micro_segments` returns segments whose concatenated words equal the
input's concatenated words, and `merge_similar_speakers` does the same up to
the in-place speaker relabelling (text and timestamps of each word are
untouched, and no word is dropped, duplicated or reordered). -/
theorem alignment_stages_conserve_words
    (words : List Word) (min_duration : ℚ) (m : Nat) (t : ℚ)
    (segs1 segs2 : List TranscriptSegment) :
    segmentWords (group_words_by_speaker words) = words ∧
    segmentWords (merge_micro_segments segs1 min_duration) = segmentWords segs1 ∧
    (segmentWords (merge_similar_speakers segs2 m t)).map wordShape =
      (segmentWords segs2).map wordShape := by
  refine ⟨?_, merge_micro_join min_duration segs1, merge_similar_shape segs2 m t⟩
  cases words with
  | nil => rfl
  | cons w ws =>
    have := groupAux_join ws w.speaker [w] w.start
    simpa using this

/-- C8: `merge_micro_segments` terminates: every `while changed` pass that
reports a change strictly reduces the number of segments, so the loop reaches
a pass that changes nothing — on any input with more than two segments the
returned list is a fixed point of the pass. -/
theorem merge_micro_segments_terminates (min_duration : ℚ) :
    (∀ (segments out : List TranscriptSegment),
      microPass min_duration segments = (out, true) → out.length < segments.length) ∧
    (∀ segments : List TranscriptSegment, 2 < segments.length →
      (microPass min_duration (merge_micro_segments segments min_duration)).2 = false) := by
  constructor
  · intro segments out h
    have := microPass_lt min_duration segments (by rw [h])
    rw [h] at this
    exact this
  · intro segments h
    exact merge_micro_fix min_duration segments h

/-- C7: graceful degradation on empty diarization.  With no speaker segments
`assign_speakers_to_words` returns the words unchanged (speakers still
unset), and the full pipeline returns exactly one undifferentiated
`TranscriptSegment` holding all the words. -/
theorem empty_diarization_degraded_mode
    (words : List Word) (rttm_content : String)
    (hw : words ≠ []) (hunset : ∀ w ∈ words, w.speaker = none)
    (hparse : parse_rttm rttm_content = .ok []) :
    assign_speakers_to_words words [] = words ∧
    align_transcription_with_diarization words rttm_content =
      .ok [⟨none, words, (words.head hw).start, lastStop words⟩] := by
  have ha : assign_speakers_to_words words [] = words := by
    rw [assign_speakers_to_words, if_pos rfl]
  refine ⟨ha, ?_⟩
  rw [align_transcription_with_diarization, hparse]
  simp only [Except.map]
  rw [ha]
  cases words with
  | nil => exact absurd rfl hw
  | cons w ws =>
    have hwsp : w.speaker = none := hunset w (by simp)
    have hg : group_words_by_speaker (w :: ws) =
        [⟨none, w :: ws, w.start, lastStop (w :: ws)⟩] := by
      rw [group_words_by_speaker, groupAux_const ws w.speaker [w] w.start
        (fun x hx => by rw [hunset x (by simp [hx]), hwsp])]
      simp [hwsp]
    rw [hg]
    have hm : merge_micro_segments [⟨none, w :: ws, w.start, lastStop (w :: ws)⟩] (3/2) =
        [⟨none, w :: ws, w.start, lastStop (w :: ws)⟩] := by
      rw [merge_micro_segments, if_pos (by simp)]
    rw [hm]
    have hs : merge_similar_speakers [⟨none, w :: ws, w.start, lastStop (w :: ws)⟩] 3 (1/20) =
        [⟨none, w :: ws, w.start, lastStop (w :: ws)⟩] :=
      merge_similar_noop _ 3 (1/20) (Or.inr (Or.inl (by simp [speakerStats, statsUpsert])))
    rw [hs]
    rfl

/-- C6: `parse_rttm` round-trip.  For any input whose `SPEAKER` lines with at
least 8 fields all carry numeric start and duration, parsing succeeds and
returns exactly one segment per such line — sorted ascending by start and, up
to that reordering, exactly the segments `⟨field 7, start, start + duration⟩`
of the well-formed lines; other lines are ignored or skipped. -/
theorem parse_rttm_roundtrip (rttm_content : String)
    (h : ∀ line ∈ splitNl (pyStrip rttm_content.data),
      rttmRelevant line = true → rttmNumeric line = true) :
    ∃ segs, parse_rttm rttm_content = .ok segs ∧
      segs.length = ((splitNl (pyStrip rttm_content.data)).filter rttmGood).length ∧
      segs.Perm (((splitNl (pyStrip rttm_content.data)).filter rttmGood).map lineSeg) ∧
      List.Sorted segLE segs := by
  refine ⟨List.insertionSort segLE
    (((splitNl (pyStrip rttm_content.data)).filter rttmGood).map lineSeg), ?_, ?_, ?_, ?_⟩
  · rw [parse_rttm, parseRttmLines_ok _ h]
    rfl
  · rw [(List.perm_insertionSort segLE _).length_eq]
    simp
  · exact List.perm_insertionSort segLE _
  · exact List.sorted_insertionSort segLE _

/-- C1 (amended): `merge_similar_speakers` applied twice equals one
application provided that on the once-merged output one of the consolidator's
no-op guards holds — fewer than two distinct speakers remain, the total
duration is zero, no remaining speaker is minor, or every remaining speaker is
minor.  (Without that stability proviso the claim fails: consolidation can
leave a previously dominant speaker with a single segment, and a second
application then merges it away.) -/
theorem merge_similar_speakers_idempotent_of_stable
    (segments : List TranscriptSegment) (m : Nat) (t : ℚ)
    (h : merge_similar_speakers segments m t = [] ∨
      (speakerStats (merge_similar_speakers segments m t)).length < 2 ∨
      grandTotal (speakerStats (merge_similar_speakers segments m t)) = 0 ∨
      minorKeys (speakerStats (merge_similar_speakers segments m t)) m t
        (grandTotal (speakerStats (merge_similar_speakers segments m t))) = [] ∨
      dominantKeys (speakerStats (merge_similar_speakers segments m t)) m t
        (grandTotal (speakerStats (merge_similar_speakers segments m t))) = []) :
    merge_similar_speakers (merge_similar_speakers segments m t) m t =
      merge_similar_speakers segments m t :=
  merge_similar_noop (merge_similar_speakers segments m t) m t h

/-- Witness for C1's amended theorem at a concrete single-speaker input. -/
theorem merge_similar_speakers_idempotent_of_stable_witness :
    merge_similar_speakers
        (merge_similar_speakers [⟨some "A", [], 0, 10⟩] 3 (1/20)) 3 (1/20) =
      merge_similar_speakers [⟨some "A", [], 0, 10⟩] 3 (1/20) := by
  refine merge_similar_speakers_idempotent_of_stable [⟨some "A", [], 0, 10⟩] 3 (1/20) ?_
  have h1 : merge_similar_speakers [⟨some "A", [], 0, 10⟩] 3 (1/20) = [⟨some "A", [], 0, 10⟩] :=
    merge_similar_noop _ 3 (1/20) (Or.inr (Or.inl (by simp [speakerStats, statsUpsert])))
  rw [h1]
  exact Or.inr (Or.inl (by simp [speakerStats, statsUpsert]))

/-- C10: the skip-and-continue guarantee covers only lines with fewer than 8
fields.  A `SPEAKER` line with 8 fields whose 4th field is not numeric makes
`parse_rttm` raise (modelled as `Except.error`), while a short `SPEAKER` line
is skipped and parsing succeeds. -/
theorem parse_rttm_nonnumeric_error :
    parse_rttm "SPEAKER f 1 abc 5 <NA> <NA> S0 <NA> <NA>" =
      .error "ValueError: could not convert string to float" ∧
    parse_rttm "SPEAKER f 1" = .ok [] := by
  constructor
  · simp [parse_rttm, parseRttmLines, splitNl, splitNlAux, pyStrip, pyFields, pyFieldsAux,
      startsWithKeyword, pyFloat, pyFloatMag, digitsVal, Except.map]
  · simp [parse_rttm, parseRttmLines, splitNl, splitNlAux, pyStrip, pyFields, pyFieldsAux,
      startsWithKeyword, pyFloat, pyFloatMag, digitsVal, Except.map, List.insertionSort]

set_option maxHeartbeats 1000000 in
/-- C2: end-to-end scenario.  Words («Hi» 0–1, «Bob» 1–2, «Hey» 5–6,
«Alice» 6–7) with diarization turns S0 0–3 and S1 3–8 yield exactly two
transcript segments: S0 with text «Hi Bob» and S1 with text «Hey Alice». -/
theorem align_end_to_end_scenario :
    align_transcription_with_diarization
        [⟨"Hi", 0, 1, none⟩, ⟨"Bob", 1, 2, none⟩, ⟨"Hey", 5, 6, none⟩, ⟨"Alice", 6, 7, none⟩]
        "SPEAKER file 1 0 3 <NA> <NA> S0 <NA> <NA>\nSPEAKER file 1 3 5 <NA> <NA> S1 <NA> <NA>" =
      .ok [⟨some "S0", [⟨"Hi", 0, 1, some "S0"⟩, ⟨"Bob", 1, 2, some "S0"⟩], 0, 2⟩,
           ⟨some "S1", [⟨"Hey", 5, 6, some "S1"⟩, ⟨"Alice", 6, 7, some "S1"⟩], 5, 7⟩] ∧
    TranscriptSegment.text ⟨some "S0", [⟨"Hi", 0, 1, some "S0"⟩, ⟨"Bob", 1, 2, some "S0"⟩], 0, 2⟩ =
      "Hi Bob" ∧
    TranscriptSegment.text
        ⟨some "S1", [⟨"Hey", 5, 6, some "S1"⟩, ⟨"Alice", 6, 7, some "S1"⟩], 5, 7⟩ =
      "Hey Alice" := by
  refine ⟨?_, by simp [TranscriptSegment.text, joinSpace], by simp [TranscriptSegment.text, joinSpace]⟩
  have hp : parse_rttm "SPEAKER file 1 0 3 <NA> <NA> S0 <NA> <NA>\nSPEAKER file 1 3 5 <NA> <NA> S1 <NA> <NA>" = .ok [⟨"S0", 0, 3⟩, ⟨"S1", 3, 8⟩] := by
    simp [parse_rttm, parseRttmLines, splitNl, splitNlAux, pyStrip, pyFields, pyFieldsAux,
      startsWithKeyword, pyFloat, pyFloatMag, digitsVal, Except.map, List.insertionSort,
      List.orderedInsert, segLE]
    norm_num
  have ha : assign_speakers_to_words
      [⟨"Hi", 0, 1, none⟩, ⟨"Bob", 1, 2, none⟩, ⟨"Hey", 5, 6, none⟩, ⟨"Alice", 6, 7, none⟩]
      [⟨"S0", 0, 3⟩, ⟨"S1", 3, 8⟩] =
      [⟨"Hi", 0, 1, some "S0"⟩, ⟨"Bob", 1, 2, some "S0"⟩, ⟨"Hey", 5, 6, some "S1"⟩,
       ⟨"Alice", 6, 7, some "S1"⟩] := by
    simp [assign_speakers_to_words, assignSpeaker, SpeakerSegment.overlaps_with,
      decide_eq_true_eq]
    try simp [assignSpeaker, firstMinBy, firstMaxBy, closenessKey,
      SpeakerSegment.overlap_duration, SpeakerSegment.overlaps_with, decide_eq_true_eq]
    try norm_num [firstMinBy, firstMaxBy, closenessKey, SpeakerSegment.overlap_duration]
  have hg : group_words_by_speaker
      [⟨"Hi", 0, 1, some "S0"⟩, ⟨"Bob", 1, 2, some "S0"⟩, ⟨"Hey", 5, 6, some "S1"⟩,
       ⟨"Alice", 6, 7, some "S1"⟩] =
      [⟨some "S0", [⟨"Hi", 0, 1, some "S0"⟩, ⟨"Bob", 1, 2, some "S0"⟩], 0, 2⟩,
       ⟨some "S1", [⟨"Hey", 5, 6, some "S1"⟩, ⟨"Alice", 6, 7, some "S1"⟩], 5, 7⟩] := by
    simp [group_words_by_speaker, groupAux, lastStop]
  have hm : merge_micro_segments
      [⟨some "S0", [⟨"Hi", 0, 1, some "S0"⟩, ⟨"Bob", 1, 2, some "S0"⟩], 0, 2⟩,
       ⟨some "S1", [⟨"Hey", 5, 6, some "S1"⟩, ⟨"Alice", 6, 7, some "S1"⟩], 5, 7⟩] (3/2) =
      [⟨some "S0", [⟨"Hi", 0, 1, some "S0"⟩, ⟨"Bob", 1, 2, some "S0"⟩], 0, 2⟩,
       ⟨some "S1", [⟨"Hey", 5, 6, some "S1"⟩, ⟨"Alice", 6, 7, some "S1"⟩], 5, 7⟩] := by
    rw [merge_micro_segments, if_pos (by simp)]
  have hs : merge_similar_speakers
      [⟨some "S0", [⟨"Hi", 0, 1, some "S0"⟩, ⟨"Bob", 1, 2, some "S0"⟩], 0, 2⟩,
       ⟨some "S1", [⟨"Hey", 5, 6, some "S1"⟩, ⟨"Alice", 6, 7, some "S1"⟩], 5, 7⟩] 3 (1/20) =
      [⟨some "S0", [⟨"Hi", 0, 1, some "S0"⟩, ⟨"Bob", 1, 2, some "S0"⟩], 0, 2⟩,
       ⟨some "S1", [⟨"Hey", 5, 6, some "S1"⟩, ⟨"Alice", 6, 7, some "S1"⟩], 5, 7⟩] := by
    refine merge_similar_noop _ 3 (1/20) (Or.inr (Or.inr (Or.inr (Or.inr ?_))))
    simp [speakerStats, statsUpsert, updateStats, grandTotal, dominantKeys, isMinorStats,
      min_def, max_def]
  rw [align_transcription_with_diarization, hp]
  simp only [Except.map]
  rw [ha, hg, hm, hs]

theorem assign_speakers_case_analysis_witness :
    assign_speakers_to_words [⟨"Hi", 0, 1, none⟩] [⟨"S0", 0, 3⟩] =
      [⟨"Hi", 0, 1, none⟩].map (assignSpeaker [⟨"S0", 0, 3⟩]) ∧
    assignSpeaker [⟨"S0", 0, 3⟩] ⟨"Hi", 0, 1, none⟩ =
      { (⟨"Hi", 0, 1, none⟩ : Word) with speaker := some "S0" } :=
  ⟨(assign_speakers_case_analysis [⟨"Hi", 0, 1, none⟩] [⟨"S0", 0, 3⟩] (by simp)).1,
   ((assign_speakers_case_analysis [⟨"Hi", 0, 1, none⟩] [⟨"S0", 0, 3⟩] (by simp)).2.2
      ⟨"Hi", 0, 1, none⟩).2.1 ⟨"S0", 0, 3⟩
    (by simp [SpeakerSegment.overlaps_with, decide_eq_true_eq])⟩

theorem merge_micro_sandwich_witness :
    merge_micro_segments
        [⟨some "A", [⟨"a", 0, 10, some "A"⟩], 0, 10⟩, ⟨some "B", [⟨"b", 10, 11, some "B"⟩], 10, 11⟩,
         ⟨some "A", [⟨"c", 11, 20, some "A"⟩], 11, 20⟩] (3/2) =
      [⟨some "A", [⟨"a", 0, 10, some "A"⟩, ⟨"b", 10, 11, some "B"⟩, ⟨"c", 11, 20, some "A"⟩], 0, 20⟩] ∧
    merge_micro_segments
        [⟨some "A", [⟨"a", 0, 10, some "A"⟩], 0, 10⟩, ⟨some "B", [⟨"b", 10, 11, some "B"⟩], 10, 11⟩,
         ⟨some "C", [⟨"c", 11, 20, some "C"⟩], 11, 20⟩] (3/2) =
      [⟨some "A", [⟨"a", 0, 10, some "A"⟩], 0, 10⟩, ⟨some "B", [⟨"b", 10, 11, some "B"⟩], 10, 11⟩,
       ⟨some "C", [⟨"c", 11, 20, some "C"⟩], 11, 20⟩] :=
  ⟨(merge_micro_sandwich (3/2) _ _ _ (by norm_num)).1 rfl,
   (merge_micro_sandwich (3/2) _ _ _ (by norm_num)).2 (by simp) (by simp) (by simp)⟩

theorem alignment_stages_no_adjacent_same_speaker_witness :
    noAdjacentSameSpeaker (group_words_by_speaker [⟨"Hi", 0, 1, none⟩]) ∧
    noAdjacentSameSpeaker (merge_micro_segments [⟨some "A", [], 0, 10⟩] (3/2)) ∧
    noAdjacentSameSpeaker (merge_similar_speakers [⟨some "A", [], 0, 10⟩] 3 (1/20)) :=
  alignment_stages_no_adjacent_same_speaker [⟨"Hi", 0, 1, none⟩] (3/2) 3 (1/20)
    [⟨some "A", [], 0, 10⟩] [⟨some "A", [], 0, 10⟩]
    (by simp [noAdjacentSameSpeaker]) (by simp [noAdjacentSameSpeaker])

theorem empty_diarization_degraded_mode_witness :
    assign_speakers_to_words [⟨"Hi", 0, 1, none⟩] [] = [⟨"Hi", 0, 1, none⟩] ∧
    align_transcription_with_diarization [⟨"Hi", 0, 1, none⟩] "" =
      .ok [⟨none, [⟨"Hi", 0, 1, none⟩], 0, lastStop [⟨"Hi", 0, 1, none⟩]⟩] :=
  empty_diarization_degraded_mode [⟨"Hi", 0, 1, none⟩] "" (by simp) (by simp)
    (by simp [parse_rttm, parseRttmLines, splitNl, splitNlAux, pyStrip, Except.map,
      List.insertionSort])

theorem merge_micro_segments_terminates_witness :
    ([⟨some "A", [], 0, 20⟩] : List TranscriptSegment).length <
      ([⟨some "A", [], 0, 10⟩, ⟨some "B", [], 10, 11⟩, ⟨some "A", [], 11, 20⟩] :
        List TranscriptSegment).length ∧
    (microPass (3/2) (merge_micro_segments
      [⟨some "A", [], 0, 10⟩, ⟨some "B", [], 10, 11⟩, ⟨some "A", [], 11, 20⟩] (3/2))).2 = false :=
  ⟨(merge_micro_segments_terminates (3/2)).1
      [⟨some "A", [], 0, 10⟩, ⟨some "B", [], 10, 11⟩, ⟨some "A", [], 11, 20⟩]
      [⟨some "A", [], 0, 20⟩]
      (by simp [microPass, rebuildPass, consolidatePass]; norm_num [consolidatePass]),
   (merge_micro_segments_terminates (3/2)).2
      [⟨some "A", [], 0, 10⟩, ⟨some "B", [], 10, 11⟩, ⟨some "A", [], 11, 20⟩] (by norm_num)⟩

theorem parse_rttm_roundtrip_witness :
    ∃ segs,
      parse_rttm "junk\nSPEAKER f 1 3 5 <NA> <NA> S1 <NA> <NA>\nSPEAKER short\nSPEAKER f 1 0 3 <NA> <NA> S0 <NA> <NA>" = .ok segs ∧
      segs.length = ((splitNl (pyStrip ("junk\nSPEAKER f 1 3 5 <NA> <NA> S1 <NA> <NA>\nSPEAKER short\nSPEAKER f 1 0 3 <NA> <NA> S0 <NA> <NA>" : String).data)).filter rttmGood).length ∧
      segs.Perm (((splitNl (pyStrip ("junk\nSPEAKER f 1 3 5 <NA> <NA> S1 <NA> <NA>\nSPEAKER short\nSPEAKER f 1 0 3 <NA> <NA> S0 <NA> <NA>" : String).data)).filter rttmGood).map lineSeg) ∧
      List.Sorted segLE segs :=
  parse_rttm_roundtrip _ (by decide)
